import Mathlib

/-!
Verification of the document-extraction and catalog-synchronization pipeline
of the quotation-management repository (module `import_from_pdf.py`, with the
catalog schema from `database_setup.py`).

Python strings are modelled as lists of characters, page/table extraction
results as plain data, the SQLite catalog as an explicit record of rows, and
console-only aggregates of the batch importer as an explicit summary record.
-/

set_option maxRecDepth 10000

namespace EstImport

/-- Python strings are modelled as lists of characters. -/
abbrev Str := List Char

/-- Shorthand turning a Lean string literal into the character-list model. -/
def lit (s : String) : Str := s.toList

/-- Whitespace predicate modelling Python `str.strip()` (no argument) and the
regex class `\s`: ASCII whitespace, vertical tab, form feed, NBSP and the
ideographic space U+3000.  Other exotic Unicode spaces are not exercised by
the importer's inputs and are not modelled. -/
def isSpaceCh (c : Char) : Bool :=
  c.toNat = 32 || c.toNat = 9 || c.toNat = 10 || c.toNat = 13 ||
  c.toNat = 11 || c.toNat = 12 || c.toNat = 160 || c.toNat = 12288

/-- Python `s.strip()`: drop leading and trailing whitespace. -/
def pstrip (s : Str) : Str :=
  ((s.dropWhile isSpaceCh).reverse.dropWhile isSpaceCh).reverse

/-- Python substring containment `needle in hay`. -/
def hasSub (hay needle : Str) : Bool :=
  match hay with
  | [] => needle.isEmpty
  | _ :: rest => needle.isPrefixOf hay || hasSub rest needle

/-- Python `text.split('\n')` (used on page text in `parse_pdf_estimate`). -/
def splitLinesAux : Str → Str → List Str
  | [], acc => [acc.reverse]
  | c :: rest, acc =>
      if c = '\n' then acc.reverse :: splitLinesAux rest []
      else splitLinesAux rest (c :: acc)

def splitLines (s : Str) : List Str := splitLinesAux s []

/-- Python `str.lower()` restricted to ASCII letters.  Every keyword of the
category table is ASCII or Japanese (Japanese has no case), so the Unicode
case mappings of `str.lower()` beyond ASCII are not exercised and are not
modelled. -/
def lowerCh (c : Char) : Char :=
  if 65 ≤ c.toNat && c.toNat ≤ 90 then Char.ofNat (c.toNat + 32) else c

def lowerStr (s : Str) : Str := s.map lowerCh

/-- Python truthiness of an optional string cell: `None` and `''` are falsy. -/
def truthy : Option Str → Bool
  | none => false
  | some s => !s.isEmpty

/-! ### Price token normalization: `int(float(re.sub(r'[￥¥,円]', '', s)))` -/

def isDigitCh (c : Char) : Bool := 48 ≤ c.toNat && c.toNat ≤ 57

def digitVal (c : Char) : Nat := c.toNat - 48

/-- Value of a big-endian decimal digit string. -/
def parseNatDigits (ds : Str) : Nat := ds.foldl (fun a c => a * 10 + digitVal c) 0

/-- Fuelled floor base-2 logarithm (`log2F n n` is `⌊log₂ n⌋` for `0 < n`). -/
def log2F : Nat → Nat → Nat
  | 0, _ => 0
  | fuel + 1, n => if n < 2 then 0 else log2F fuel (n / 2) + 1

/-- Rounding a natural number to 53 significant binary digits, to nearest,
ties to even.  This is exactly what parsing the decimal numeral of `n` as an
IEEE-754 binary64 value does for `n` below the binary64 overflow threshold;
values that are at least `2 ^ 53` are rounded, smaller values are exact. -/
def roundNE53 (n : Nat) : Nat :=
  if n < 2 ^ 53 then n
  else
    let k := log2F n n - 52
    let q := n / 2 ^ k
    let r := n % 2 ^ k
    let h := 2 ^ (k - 1)
    (if h < r || (r = h && q % 2 = 1) then q + 1 else q) * 2 ^ k

/-- Model of Python `int(float(s))` on the token shapes the importer meets:
optional surrounding whitespace, an optional sign, an integer part, and an
optional `.`-separated fractional part.  `int()` truncates toward zero, so the
fractional digits are dropped; the integer part is rounded exactly as decimal
to binary64 parsing rounds it (`roundNE53`).  Not modelled (never produced by
price cells of these documents): exponent forms, `inf`/`nan`, underscore
separators, binary64 overflow above `2 ^ 1024`, and the carry from a
fractional part that rounds across an integer boundary. -/
def pyFloatInt (s : Str) : Option Int :=
  let t := ((s.dropWhile isSpaceCh).reverse.dropWhile isSpaceCh).reverse
  let sgn : Bool := match t with | c :: _ => c = '-' | [] => false
  let u : Str := match t with
    | c :: r => if c = '-' || c = '+' then r else c :: r
    | [] => []
  let ip := u.takeWhile isDigitCh
  let rest := u.drop ip.length
  let mkVal : Nat → Int := fun v => if sgn then -(v : Int) else (v : Int)
  match rest with
  | [] => if ip.isEmpty then none else some (mkVal (roundNE53 (parseNatDigits ip)))
  | c :: frac =>
      if c = '.' && frac.all isDigitCh && !(ip.isEmpty && frac.isEmpty) then
        some (mkVal (roundNE53 (parseNatDigits ip)))
      else none

/-- The character class of `re.sub(r'[￥¥,円]', '', price_str)`: remove every
occurrence of the two yen glyphs, the comma and the unit character. -/
def cleanPrice (s : Str) : Str :=
  s.filter (fun c => !(c = '￥' || c = '¥' || c = ',' || c = '円'))

/-- The price token normalizer: strip currency glyphs, the unit character and
commas, then `int(float(...))`; `none` models the caught `ValueError`. -/
def normalizePrice (s : Str) : Option Int := pyFloatInt (cleanPrice s)

/-! ### Table line-item extraction -/

/-- One extracted line item (the dicts appended to `products`). -/
structure Item where
  name : Str
  unit : Option Str
  base_price : Int
deriving DecidableEq, Repr

/-- One data row of `table[1:]` in `parse_pdf_estimate`.  Mirrors the Python
row body including its guards: fewer than 4 cells is skipped; `product_name`,
`quantity_str`, `unit`, `price_str` are the conditional cell reads (note the
`'個'` default arm of `unit` and the `None` default arm of `price_str` mirror
the source's conditional expressions); rows whose name or price cell is falsy
are skipped; a `ValueError` of `int(float(...))` skips the row. -/
def rowToItem (row : List (Option Str)) : Option Item :=
  if row.length < 4 then none
  else
    let product_name := if 1 < row.length then row.getD 1 none else none
    let _quantity_str := if 2 < row.length then row.getD 2 none else none
    let unit := if 3 < row.length then row.getD 3 none else some (lit "個")
    let price_str := if 4 < row.length then row.getD 4 none else none
    if !(truthy product_name && truthy price_str) then none
    else
      let name := pstrip ((product_name.getD []).map (fun c => if c = '\n' then ' ' else c))
      match normalizePrice (price_str.getD []) with
      | none => none
      | some bp => some ⟨name, unit, bp⟩

/-- Items of one extracted table: empty tables are skipped, a table counts
only if some truthy header cell contains `品名`, and each later row goes
through `rowToItem`. -/
def tableItems (t : List (List (Option Str))) : List Item :=
  match t with
  | [] => []
  | header :: rows =>
      if header.any (fun cell => truthy cell && hasSub (cell.getD []) (lit "品名")) then
        rows.filterMap rowToItem
      else []

/-! ### Text field locator -/

def companyKeywords : List Str :=
  [lit "株式会社", lit "有限会社", lit "合同会社", lit "一般社団法人",
   lit "財団法人", lit "社団法人", lit "医療法人"]

/-- The inner window scan after a `宛先` line: strip each candidate line,
skip blank lines and lines containing `ご担当`/`発行元`, and return the first
line containing a legal-entity keyword. -/
def findCompany : List Str → Option Str
  | [] => none
  | l :: rest =>
      let next_line := pstrip l
      if next_line.isEmpty || hasSub next_line (lit "ご担当") || hasSub next_line (lit "発行元") then
        findCompany rest
      else if companyKeywords.any (fun k => hasSub next_line k) then some next_line
      else findCompany rest

/-- The customer-name scan over the lines of one page, threading the mutable
`customer_name` variable: every line containing `宛先` triggers a scan of the
following window of (up to) 4 lines, and a successful scan overwrites the
accumulator (`Option.or` keeps the old value exactly when the scan found
nothing, as the Python assignment-inside-the-window-loop does). -/
def custScan : List Str → Option Str → Option Str
  | [], acc => acc
  | line :: rest, acc =>
      custScan rest
        (if hasSub line (lit "宛先") then (findCompany (rest.take 4)).or acc else acc)

/-- The delimiter class `[︓:：\s]` of the work-site regex. -/
def addrDelim (c : Char) : Bool := c = '︓' || c = ':' || c = '：' || isSpaceCh c

/-- Matching `[︓:：\s]+(.+)` against the text following a `作業場所` literal:
the greedy delimiter run backs off one character when it would otherwise leave
the (nonempty) capture group with nothing to match. -/
def addrAfter (rest : Str) : Option Str :=
  let m := (rest.takeWhile addrDelim).length
  if m = 0 then none
  else if m < rest.length then some (rest.drop m)
  else if 2 ≤ m then some (rest.drop (m - 1))
  else none

/-- Model of `re.search(r'作業場所[︓:：\s]+(.+)', line)`: try every position
whose suffix starts with the literal `作業場所` from left to right, and return
the capture group of the first position where the rest of the pattern also
matches. -/
def addrSearch : Str → Option Str
  | [] => none
  | c :: rest =>
      if (lit "作業場所").isPrefixOf (c :: rest) then
        match addrAfter ((c :: rest).drop 4) with
        | some a => some a
        | none => addrSearch rest
      else addrSearch rest

def addrNextLabels : List Str := [lit "作業日", lit "作業名", lit "項目"]

/-- The address a `作業場所` line contributes, if any: the stripped capture
group of the same-line regex, or else the stripped following line unless it
is blank or looks like another field label (`none` means the mutable
`address` variable is left untouched). -/
def addrUpd (line : Str) (rest : List Str) : Option Str :=
  match addrSearch line with
  | some a => some (pstrip a)
  | none =>
      match rest with
      | [] => none
      | nl :: _ =>
          let next_line := pstrip nl
          if !next_line.isEmpty && !(addrNextLabels.any (fun x => hasSub next_line x)) then
            some next_line
          else none

/-- The address scan over the lines of one page, threading the mutable
`address` variable: every line containing `作業場所` either overwrites the
accumulator with the value it contributes or leaves it untouched. -/
def addrScan : List Str → Option Str → Option Str
  | [], acc => acc
  | line :: rest, acc =>
      addrScan rest
        (if hasSub line (lit "作業場所") then (addrUpd line rest).or acc else acc)

/-! ### Document parser -/

/-- One page as delivered by the extraction primitive: `text` is the result
of `page.extract_text()` (`none` models Python `None`), `tables` the result
of `page.extract_tables()` with optional cell strings. -/
structure Page where
  text : Option Str
  tables : List (List (List (Option Str)))
deriving DecidableEq, Repr

/-- A source document: either unreadable (the extraction library raises while
opening or decoding it) or a list of pages. -/
inductive PDoc where
  | corrupt : PDoc
  | pages : List Page → PDoc
deriving DecidableEq, Repr

/-- The dict returned by `parse_pdf_estimate`. -/
structure ParsedEstimate where
  customer_name : Option Str
  address : Option Str
  products : List Item
deriving DecidableEq, Repr

/-- Lines of a page: `extract_text()` results that are falsy (absent or
empty) contribute no lines. -/
def pageLines (p : Page) : List Str :=
  match p.text with
  | some t => if t.isEmpty then [] else splitLines t
  | none => []

/-- Processing of one page inside the `for page in pdf.pages` loop: the two
field scans thread their accumulators, and the items of all candidate tables
are appended in order. -/
def pageStep (st : ParsedEstimate) (p : Page) : ParsedEstimate :=
  { customer_name := custScan (pageLines p) st.customer_name
    address := addrScan (pageLines p) st.address
    products := st.products ++ (p.tables.map tableItems).flatten }

/-- `parse_pdf_estimate`: `none` models the `except` branch returning `None`
for an unreadable document; otherwise the pages are folded in order starting
from all-unset fields. -/
def parsePdfEstimate : PDoc → Option ParsedEstimate
  | .corrupt => none
  | .pages ps => some (ps.foldl pageStep ⟨none, none, []⟩)

/-! ### Category classifier -/

/-- The ordered category/keyword table of `_guess_category` (Python dicts
preserve insertion order). -/
def categories : List (Str × List Str) :=
  [(lit "IT・開発",
    [lit "開発", lit "システム", lit "プログラム", lit "API", lit "サーバー",
     lit "クラウド", lit "SaaS", lit "アプリ", lit "Web", lit "データベース",
     lit "db", lit "テスト", lit "レビュー", lit "設計"]),
   (lit "ネットワーク",
    [lit "ルーター", lit "スイッチ", lit "Wi-Fi", lit "LAN", lit "ネットワーク",
     lit "ケーブル", lit "HDMI"]),
   (lit "ハードウェア",
    [lit "パソコン", lit "PC", lit "サーバ", lit "モニター", lit "プリンター",
     lit "複合機", lit "タブレット", lit "ノートPC", lit "Laptop"]),
   (lit "サービス",
    [lit "保守", lit "メンテナンス", lit "作業", lit "支援", lit "サポート",
     lit "プラン", lit "ライセンス", lit "オンサイト", lit "運用"]),
   (lit "ソフトウェア",
    [lit "Office", lit "Microsoft", lit "Google", lit "Workspace",
     lit "ソフトウェア", lit "アプリケーション"]),
   (lit "家電",
    [lit "冷蔵庫", lit "洗濯機", lit "エアコン", lit "電子レンジ", lit "テレビ"]),
   (lit "家具",
    [lit "テーブル", lit "椅子", lit "デスク", lit "チェア", lit "棚"])]

/-- The nested keyword loop of `_guess_category`: categories in listed order,
return on the first category with a keyword contained (case-insensitively) in
the product name. -/
def guessCategoryAux (product_lower : Str) : List (Str × List Str) → Str
  | [] => lit "その他"
  | (category, keywords) :: rest =>
      if keywords.any (fun k => hasSub product_lower (lowerStr k)) then category
      else guessCategoryAux product_lower rest

/-- `_guess_category`. -/
def guessCategory (product_name : Str) : Str :=
  guessCategoryAux (lowerStr product_name) categories

/-! ### Catalog merger -/

/-- A `customers` row (the columns the importer touches; `address` is a
`NOT NULL` column in `database_setup.py`, hence inserting `none` there is a
constraint violation, see `importCustomer`). -/
structure Customer where
  customer_id : Nat
  company_name : Str
  address : Option Str
  phone : Str
  email : Str
deriving DecidableEq, Repr

/-- A `products` row (the columns the importer touches). -/
structure Product where
  product_id : Nat
  product_name : Str
  product_category : Str
  base_price : Int
  unit : Option Str
deriving DecidableEq, Repr

/-- The catalog store: the two tables plus the `AUTOINCREMENT` counters that
assign fresh row ids. -/
structure CatalogState where
  customers : List Customer
  products : List Product
  nextCustomerId : Nat
  nextProductId : Nat
deriving DecidableEq, Repr

def empty0 : CatalogState := ⟨[], [], 1, 1⟩

/-- Outcome of one `import_customer` call.  `dbError` is the
`sqlite3.IntegrityError` raised by inserting a `None` address into the
`NOT NULL` `customers.address` column. -/
inductive CustOutcome where
  | noop
  | skipped (id : Nat)
  | created (id : Nat)
  | dbError
deriving DecidableEq, Repr

/-- `import_customer`: falsy name is a no-op, an existing `company_name`
match is skipped (existing wins), otherwise the row is inserted with empty
phone/email; inserting without an address violates the schema's `NOT NULL`
constraint and nothing is inserted. -/
def importCustomer (name : Str) (addr : Option Str) (st : CatalogState) :
    CustOutcome × CatalogState :=
  if name.isEmpty then (.noop, st)
  else
    match st.customers.find? (fun c => c.company_name == name) with
    | some c => (.skipped c.customer_id, st)
    | none =>
        match addr with
        | none => (.dbError, st)
        | some a =>
            (.created st.nextCustomerId,
             { st with
               customers := st.customers ++
                 [⟨st.nextCustomerId, name, some a, [], []⟩]
               nextCustomerId := st.nextCustomerId + 1 })

/-- Outcome of one `import_product` call. -/
inductive ProdOutcome where
  | noop
  | skipped (id : Nat)
  | updated (id : Nat)
  | created (id : Nat)
deriving DecidableEq, Repr

/-- The row transformation of `UPDATE products SET base_price = ?, unit = ?
WHERE product_id = ?`: rows whose id matches get the new price and unit,
other rows are untouched. -/
def updRow (base_price : Int) (unit : Option Str) (pid : Nat) (q : Product) : Product :=
  if q.product_id = pid then { q with base_price := base_price, unit := unit } else q

/-- `import_product`: falsy name or non-positive price is a no-op; an
existing `product_name` match is updated in place (price and unit together)
when the new price is strictly higher and skipped otherwise; an absent name
is inserted with a guessed category. -/
def importProduct (name : Str) (unit : Option Str) (base_price : Int)
    (st : CatalogState) : ProdOutcome × CatalogState :=
  if name.isEmpty || base_price ≤ 0 then (.noop, st)
  else
    match st.products.find? (fun p => p.product_name == name) with
    | some p =>
        if p.base_price < base_price then
          (.updated p.product_id,
           { st with
             products := st.products.map (updRow base_price unit p.product_id) })
        else (.skipped p.product_id, st)
    | none =>
        (.created st.nextProductId,
         { st with
           products := st.products ++
             [⟨st.nextProductId, name, guessCategory name, base_price, unit⟩]
           nextProductId := st.nextProductId + 1 })

/-! ### Batch importer -/

/-- The `for product in data['products']` loop of `import_all_pdfs`,
collecting each call's outcome in order. -/
def importProducts : List Item → CatalogState → CatalogState × List ProdOutcome
  | [], st => (st, [])
  | it :: rest, st =>
      let (o, st1) := importProduct it.name it.unit it.base_price st
      let (st2, os) := importProducts rest st1
      (st2, o :: os)

/-- The only error the merge phase can raise: the `NOT NULL` violation on
`customers.address`. -/
inductive MergeErr where
  | notNullAddress
deriving DecidableEq, Repr

/-- Result of a computation that may abort with an uncaught database error. -/
inductive IRes (α : Type) where
  | ok (v : α)
  | fail (e : MergeErr)
deriving DecidableEq, Repr

/-- The per-document merge section of `import_all_pdfs`: `import_customer`
is called only when the parsed customer name is truthy, and an
`IntegrityError` raised there propagates (there is no `try` around the merge
calls); then every extracted product is merged. -/
def importDocument (data : ParsedEstimate) (st : CatalogState) :
    IRes (CatalogState × Option CustOutcome × List ProdOutcome) :=
  if truthy data.customer_name then
    match importCustomer (data.customer_name.getD []) data.address st with
    | (.dbError, _) => .fail .notNullAddress
    | (o, st1) =>
        let (st2, os) := importProducts data.products st1
        .ok (st2, some o, os)
  else
    let (st2, os) := importProducts data.products st
    .ok (st2, none, os)

/-- The printed aggregates of `import_all_pdfs`.  The Python function returns
`None`; `fileCount`, `customersImported` and `productsImported` model the
`処理ファイル数` / `顧客データ処理` / `商品データ処理` counters it prints, and
`parseFailures` models the per-document `[警告] PDF解析に失敗しました` warnings
(identified by document position in the batch). -/
structure BatchSummary where
  fileCount : Nat
  customersImported : Nat
  productsImported : Nat
  parseFailures : List Nat
deriving DecidableEq, Repr

/-- The document loop of `import_all_pdfs`: a document whose parse fails is
recorded and skipped; a successfully parsed document goes through
`importDocument`, whose uncaught database error aborts the whole loop. -/
def importAllAux : List PDoc → Nat → CatalogState → BatchSummary →
    IRes (CatalogState × BatchSummary)
  | [], _, st, s => .ok (st, s)
  | d :: rest, i, st, s =>
      match parsePdfEstimate d with
      | none =>
          importAllAux rest (i + 1) st
            { s with parseFailures := s.parseFailures ++ [i] }
      | some data =>
          match importDocument data st with
          | .fail e => .fail e
          | .ok (st', _, _) =>
              importAllAux rest (i + 1) st'
                { s with
                  customersImported :=
                    s.customersImported + (if truthy data.customer_name then 1 else 0)
                  productsImported := s.productsImported + data.products.length }

/-- `import_all_pdfs`: an empty file list returns before processing
anything; otherwise the documents are processed in listed order. -/
def importAllPdfs (files : List PDoc) (st : CatalogState) :
    IRes (CatalogState × BatchSummary) :=
  if files.isEmpty then .ok (st, ⟨0, 0, 0, []⟩)
  else importAllAux files 0 st ⟨files.length, 0, 0, []⟩

/-! ### Auxiliary notions used by the statements -/

/-- The row `import_product` finds for a name (the `fetchone` of its
`SELECT`). -/
def firstProd (st : CatalogState) (n : Str) : Option Product :=
  st.products.find? (fun p => p.product_name == n)

/-- The row `import_customer` finds for a name. -/
def firstCust (st : CatalogState) (n : Str) : Option Customer :=
  st.customers.find? (fun c => c.company_name == n)

/-- Well-formedness guaranteed by SQLite `AUTOINCREMENT`: product row ids are
pairwise distinct and below the next fresh id.  (The `UPDATE ... WHERE
product_id = ?` statement touches exactly one row only under this guarantee.) -/
def wfProducts (st : CatalogState) : Prop :=
  (∀ q ∈ st.products, q.product_id < st.nextProductId) ∧
    (st.products.map (fun q => q.product_id)).Nodup

instance (st : CatalogState) : Decidable (wfProducts st) := by
  unfold wfProducts; infer_instance

/-- A merge call, for stating catalog invariants over arbitrary merge
sequences. -/
inductive MergeCall where
  | mCust (name : Str) (addr : Option Str)
  | mProd (name : Str) (unit : Option Str) (base_price : Int)
deriving DecidableEq, Repr

def applyCall (st : CatalogState) : MergeCall → CatalogState
  | .mCust n a => (importCustomer n a st).2
  | .mProd n u p => (importProduct n u p st).2

def applyCalls (cs : List MergeCall) (st : CatalogState) : CatalogState :=
  cs.foldl applyCall st

/-- The catalog uniqueness invariant: at most one customer row per distinct
`company_name` and at most one product row per distinct `product_name`. -/
def uniqueNames (st : CatalogState) : Prop :=
  (st.customers.map (fun c => c.company_name)).Nodup ∧
    (st.products.map (fun p => p.product_name)).Nodup

instance (st : CatalogState) : Decidable (uniqueNames st) := by
  unfold uniqueNames; infer_instance

/-- Extract the printed batch summary from a batch result. -/
def summaryOf : IRes (CatalogState × BatchSummary) → Option BatchSummary
  | .ok (_, s) => some s
  | .fail _ => none

/-- What each first-pass product outcome becomes on a second pass over the
same document: every call that consulted the catalog is now a skip of the
same row, a guard no-op stays a no-op. -/
def prodSecondPass : ProdOutcome → ProdOutcome
  | .noop => .noop
  | .skipped i => .skipped i
  | .updated i => .skipped i
  | .created i => .skipped i

/-- What each first-pass customer outcome becomes on a second pass. -/
def custSecondPass : CustOutcome → CustOutcome
  | .skipped i => .skipped i
  | .created i => .skipped i
  | o => o

/-- Whether a product-merge outcome is the `skipped` kind. -/
def isSkippedP : ProdOutcome → Bool
  | .skipped _ => true
  | _ => false

/-! ### Decimal formatting, for the round-trip property

The formatter is not part of the importer; it is the input constructor of the
spec's round-trip property ("formatting `n` with thousand separators and a
currency glyph"), modelled on Python `format(n, ',')`. -/

def toDigitCh (d : Nat) : Char := Char.ofNat (48 + d)

/-- Little-endian decimal digits of `n` (fuelled; `digitsLE n n` is exact). -/
def digitsLE : Nat → Nat → List Char
  | 0, _ => []
  | fuel + 1, n => if n = 0 then [] else toDigitCh (n % 10) :: digitsLE fuel (n / 10)

/-- Big-endian decimal numeral of `n`. -/
def digitsOf (n : Nat) : Str := if n = 0 then ['0'] else (digitsLE n n).reverse

/-- Insert a thousand separator before each digit that follows a full group
of three (input and output little-endian; `k` counts digits emitted since the
last separator). -/
def commasRev : List Char → Nat → List Char
  | [], _ => []
  | c :: rest, k =>
      if k = 3 then ',' :: c :: commasRev rest 1
      else c :: commasRev rest (k + 1)

/-- `n` with thousand separators, as Python `format(n, ',')`. -/
def formatComma (n : Nat) : Str := (commasRev (digitsOf n).reverse 0).reverse

/-- A formatted price token: currency glyph, grouped digits, optionally the
unit character. -/
def formatPrice (glyph : Char) (withUnit : Bool) (n : Nat) : Str :=
  glyph :: formatComma n ++ (if withUnit then lit "円" else [])

/-- Specification-side classifier, following the spec's words: the first
category of the ordered table one of whose keywords is contained
case-insensitively in the product name wins; the fallback label `その他`
("Other") applies when no keyword matches. -/
def classifySpec (product_name : Str) : Str :=
  match categories.find?
      (fun ck => ck.2.any (fun k => hasSub (lowerStr product_name) (lowerStr k))) with
  | some ck => ck.1
  | none => lit "その他"

/-! ## Claim C9: category classifier -/

theorem guessCategoryAux_eq_find (lower : Str) :
    ∀ l : List (Str × List Str),
      guessCategoryAux lower l =
        match l.find? (fun ck => ck.2.any (fun k => hasSub lower (lowerStr k))) with
        | some ck => ck.1
        | none => lit "その他"
  | [] => rfl
  | (cat, kws) :: rest => by
      by_cases h : (kws.any (fun k => hasSub lower (lowerStr k))) = true
      · simp [guessCategoryAux, List.find?, h]
      · simp [guessCategoryAux, List.find?, h, guessCategoryAux_eq_find lower rest]

/-- C9: the category classifier is total (it is a Lean function into labels)
and agrees everywhere with the specification classifier that scans the fixed
ordered category table and returns the first category one of whose keywords
is contained case-insensitively in the product name, falling back to the
`その他` ("Other") label — so overlapping keywords resolve to the category
listed first, and an unmatched name gets the fallback. -/
theorem c9_classifier_first_match (name : Str) : guessCategory name = classifySpec name :=
  guessCategoryAux_eq_find (lowerStr name) categories

/-! ## Claim C3: shape of accepted table rows -/

/-- C3 (counterexample): a data row whose quantity cell is absent and whose
unit cell is blank is still accepted — the quantity is never validated, and
the blank unit is kept as-is instead of defaulting to the generic unit
(`個`), because the default arm is unreachable once the 4-cell minimum
holds.  This refutes both the "quantity must be present" and the "unit
defaults when blank" parts of the claim. -/
theorem c3_counterexample :
    ([none, some (lit "商品A"), none, none, some (lit "1000")] :
        List (Option Str)).getD 2 none = none ∧
    rowToItem [none, some (lit "商品A"), none, none, some (lit "1000")] =
      some ⟨lit "商品A", none, 1000⟩ ∧
    (none : Option Str) ≠ some (lit "個") := by decide

/-- C3 (amended): a data row is processed only when it has at least 4 cells;
cell 1 is the name and cell 4 (the fifth cell) the price token, so a row of
exactly 4 cells is always dropped for lack of a price; the quantity cell
(cell 2) is read but never validated and does not influence acceptance; the
unit is cell 3 verbatim (a blank unit stays blank — the generic-unit default
is dead code); a row is kept iff name and price cells are truthy and the
price token normalizes. -/
theorem c3_amended :
    (∀ (c0 c1 c2 c3 c4 : Option Str) (rest : List (Option Str)),
       rowToItem (c0 :: c1 :: c2 :: c3 :: c4 :: rest) =
         (if truthy c1 && truthy c4 then
            match normalizePrice (c4.getD []) with
            | some bp =>
                some ⟨pstrip ((c1.getD []).map (fun c => if c = '\n' then ' ' else c)),
                      c3, bp⟩
            | none => none
          else none)) ∧
    (∀ c0 c1 c2 c3 : Option Str, rowToItem [c0, c1, c2, c3] = none) := by
  constructor
  · intro c0 c1 c2 c3 c4 rest
    unfold rowToItem
    have h4 : ¬ ((c0 :: c1 :: c2 :: c3 :: c4 :: rest).length < 4) := by
      simp only [List.length_cons]; omega
    rw [if_neg h4]
    simp only [List.length_cons, List.getD_cons_succ, List.getD_cons_zero]
    have h1 : (1 : Nat) < rest.length + 1 + 1 + 1 + 1 + 1 := by omega
    have h3 : (3 : Nat) < rest.length + 1 + 1 + 1 + 1 + 1 := by omega
    have h4' : (4 : Nat) < rest.length + 1 + 1 + 1 + 1 + 1 := by omega
    rw [if_pos h1, if_pos h3, if_pos h4']
    by_cases ht : (truthy c1 && truthy c4) = true
    · simp only [ht, Bool.not_true, Bool.false_eq_true, if_false, if_true]
      cases hn : normalizePrice (c4.getD []) <;> simp [hn]
    · simp only [ht, Bool.not_false, if_true, if_false]
      simp [Bool.not_eq_true] at ht
      simp [ht]
  · intro c0 c1 c2 c3
    unfold rowToItem
    simp [truthy]

/-! ## Claim C8: sign of extracted prices -/

/-- C8 (counterexample): a table row whose price token normalizes to the
negative amount `-100` is not dropped — it contributes a line item with a
negative `base_price`. -/
theorem c8_counterexample :
    tableItems [[some (lit "品名"), some (lit "数量")],
                [some (lit "1"), some (lit "商品B"), some (lit "1"),
                 some (lit "式"), some (lit "-100")]] =
      [⟨lit "商品B", some (lit "式"), -100⟩] ∧
    (-100 : Int) < 0 := by decide

/-- C8 (amended): the `base_price` of every extracted line item is exactly
the (possibly negative) integer the price-token normalizer produced for the
row's price cell; rows whose token fails to normalize are dropped, but no
sign check is performed at parse time (non-positive prices are only rejected
later by the merger's guard). -/
theorem c8_amended (row : List (Option Str)) (it : Item)
    (h : rowToItem row = some it) :
    ∃ ps : Str, row.getD 4 none = some ps ∧ normalizePrice ps = some it.base_price := by
  simp only [rowToItem] at h
  split at h
  · exact absurd h (by simp)
  · rename_i hlen
    have h1 : 1 < row.length := by omega
    have h3 : 3 < row.length := by omega
    rw [if_pos h1, if_pos h3] at h
    by_cases h4 : 4 < row.length
    · rw [if_pos h4] at h
      split at h
      · exact absurd h (by simp)
      · rename_i hguard
        have hand : (truthy (row.getD 1 none) && truthy (row.getD 4 none)) = true := by
          revert hguard
          cases truthy (row.getD 1 none) && truthy (row.getD 4 none) <;> simp
        have htr : truthy (row.getD 4 none) = true := by
          cases hb : truthy (row.getD 4 none)
          · rw [hb, Bool.and_false] at hand; exact absurd hand (by simp)
          · rfl
        cases hps : row.getD 4 none with
        | none => rw [hps] at htr; simp [truthy] at htr
        | some ps =>
            rw [hps] at h
            rw [Option.getD_some] at h
            split at h
            · exact absurd h (by simp)
            · rename_i bp heq
              refine ⟨ps, rfl, ?_⟩
              rw [heq]
              cases it
              simp only [Option.some.injEq, Item.mk.injEq] at h
              simp [h.2.2]
    · rw [if_neg h4] at h
      simp [truthy] at h

/-! ## Concrete documents used by the batch and parser claims -/

/-- A one-page document with an addressee block, a work-site line and one
item table (product `製品X` at 100 yen). -/
def docAlpha : PDoc :=
  .pages [⟨some (lit "宛先\n株式会社アルファ\n作業場所: 東京都"),
           [[[some (lit "品名")],
             [none, some (lit "製品X"), some (lit "1"), some (lit "台"),
              some (lit "100円")]]]⟩]

/-- A one-page document with a different customer and one item table
(product `製品Y` at 200 yen). -/
def docBeta : PDoc :=
  .pages [⟨some (lit "宛先\n株式会社ベータ\n作業場所: 大阪市"),
           [[[some (lit "品名")],
             [none, some (lit "製品Y"), some (lit "2"), some (lit "個"),
              some (lit "¥200")]]]⟩]

/-- A document whose addressee block yields a customer but whose pages carry
no work-site line: its parsed address is `none`. -/
def docGammaNoAddr : PDoc := .pages [⟨some (lit "宛先\n株式会社ガンマ"), []⟩]

/-- A customer-less one-page document carrying only the `製品X` table. -/
def docProdOnly : PDoc :=
  .pages [⟨none,
           [[[some (lit "品名")],
             [none, some (lit "製品X"), some (lit "1"), some (lit "台"),
              some (lit "100円")]]]⟩]

/-- The catalog after importing `docProdOnly` into an empty catalog: one
`製品X` row. -/
def stProdX : CatalogState :=
  ⟨[], [⟨1, lit "製品X", lit "その他", 100, some (lit "台")⟩], 1, 2⟩

/-! ## Claim C5: batch failure isolation -/

/-- C5 (amended, provable part): a document whose parse fails — in
particular a corrupt document the extraction library cannot decode — is
recorded against its position and the loop continues with the remaining
documents unchanged. -/
theorem c5_amended (rest : List PDoc) (i : Nat) (st : CatalogState)
    (s : BatchSummary) :
    importAllAux (PDoc.corrupt :: rest) i st s =
      importAllAux rest (i + 1) st { s with parseFailures := s.parseFailures ++ [i] } :=
  rfl

/-- C5 (counterexample): an error raised while merging a document's records
is not caught and aborts the whole batch.  `docGammaNoAddr` parses cleanly
to a customer with no address, so `import_customer` hits the `NOT NULL`
constraint on `customers.address`; although the next document (`docBeta`)
is perfectly readable, the batch returns the propagated error and `docBeta`
is never processed. -/
theorem c5_counterexample :
    importAllPdfs [docGammaNoAddr, docBeta] empty0 = .fail .notNullAddress ∧
    (parsePdfEstimate docGammaNoAddr).isSome ∧
    (parsePdfEstimate docBeta).isSome := by decide

/-! ## Claim C4: the batch report -/

/-- C4 (amended): the batch importer returns no report value; the aggregates
it computes (and prints) are the total file count, the number of
customer-merge calls, the number of product-merge calls, and the list of
documents whose parse failed.  For a batch of 3 documents in which document
2 (position 1) is corrupt, exactly one parse failure is recorded, at
position 1, and the counters reflect documents 1 and 3. -/
theorem c4_amended :
    summaryOf (importAllPdfs [docAlpha, PDoc.corrupt, docBeta] empty0) =
      some ⟨3, 2, 2, [1]⟩ := by decide

/-- C4 (counterexample): the aggregates of `import_all_pdfs` do not count
merge outcomes by kind.  Importing `docProdOnly` into an empty catalog
creates its product, while importing it into `stProdX` (the catalog the
first run produced) skips it — two runs with different outcome kinds — yet
both runs produce the identical summary, so the summary cannot aggregate
`created`/`updated`/`skipped` counts as the claim states. -/
theorem c4_counterexample :
    importAllPdfs [docProdOnly] empty0 = .ok (stProdX, ⟨1, 0, 1, []⟩) ∧
    summaryOf (importAllPdfs [docProdOnly] stProdX) = some ⟨1, 0, 1, []⟩ ∧
    (importProduct (lit "製品X") (some (lit "台")) 100 empty0).1 =
      ProdOutcome.created 1 ∧
    (importProduct (lit "製品X") (some (lit "台")) 100 stProdX).1 =
      ProdOutcome.skipped 1 ∧
    ProdOutcome.created 1 ≠ ProdOutcome.skipped 1 := by decide

/-! ## Claim C2: which match wins in the document parser -/

/-- C2 (counterexample): on a two-page document whose pages both contain an
addressee block and a work-site line, the parser returns the names found on
the **second** page — the first non-empty results are overwritten, not
kept. -/
theorem c2_counterexample :
    parsePdfEstimate (.pages
        [⟨some (lit "宛先\n株式会社アルファ\n作業場所: 東京都千代田区"), []⟩,
         ⟨some (lit "宛先\n株式会社ベータ\n作業場所: 大阪市北区"), []⟩]) =
      some ⟨some (lit "株式会社ベータ"), some (lit "大阪市北区"), []⟩ ∧
    lit "株式会社ベータ" ≠ lit "株式会社アルファ" ∧
    lit "大阪市北区" ≠ lit "東京都千代田区" := by decide

theorem opt_or_assoc {α : Type} (a b c : Option α) : (a.or b).or c = a.or (b.or c) := by
  cases a <;> rfl

theorem opt_or_none {α : Type} (a : Option α) : a.or none = a := by
  cases a <;> rfl

theorem custScan_or (ls : List Str) : ∀ a : Option Str,
    custScan ls a = (custScan ls none).or a := by
  induction ls with
  | nil => intro a; rfl
  | cons l rest ih =>
      intro a
      simp only [custScan]
      by_cases hc : hasSub l (lit "宛先") = true
      · simp only [hc, if_true]
        rw [ih ((findCompany (rest.take 4)).or a),
            ih ((findCompany (rest.take 4)).or none),
            opt_or_none, opt_or_assoc]
      · simp only [hc, if_false]
        exact ih a

theorem addrScan_or (ls : List Str) : ∀ a : Option Str,
    addrScan ls a = (addrScan ls none).or a := by
  induction ls with
  | nil => intro a; rfl
  | cons l rest ih =>
      intro a
      simp only [addrScan]
      by_cases hc : hasSub l (lit "作業場所") = true
      · simp only [hc, if_true]
        rw [ih ((addrUpd l rest).or a), ih ((addrUpd l rest).or none),
            opt_or_none, opt_or_assoc]
      · simp only [hc, if_false]
        exact ih a

/-- C2 (amended): the Document Parser keeps the **last** successful match,
not the first: for every page list, folding the page step from any starting
field values yields, for each of the customer-name and address fields, the
value the same fold computes from unset fields when that is set (a later
match overwrites any earlier value), and the starting value only when no
later line or page matches. -/
theorem c2_amended (ps : List Page) (st : ParsedEstimate) :
    ((ps.foldl pageStep st).customer_name =
      ((ps.foldl pageStep ⟨none, none, []⟩).customer_name).or st.customer_name) ∧
    ((ps.foldl pageStep st).address =
      ((ps.foldl pageStep ⟨none, none, []⟩).address).or st.address) := by
  induction ps generalizing st with
  | nil => exact ⟨rfl, rfl⟩
  | cons p rest ih =>
      simp only [List.foldl_cons]
      have h1 := ih (pageStep st p)
      have h0 := ih (pageStep ⟨none, none, []⟩ p)
      constructor
      · rw [h1.1, h0.1]
        simp only [pageStep]
        rw [custScan_or (pageLines p) st.customer_name, opt_or_assoc]
      · rw [h1.2, h0.2]
        simp only [pageStep]
        rw [addrScan_or (pageLines p) st.address, opt_or_assoc]

/-! ## Claim C1: importing the same document twice -/

/-- A parsed document whose only product has price `0` (a genuine parser
output: a price cell `0円` normalizes to `0`). -/
def docZeroPrice : ParsedEstimate := ⟨none, none, [⟨lit "部材Y", none, 0⟩]⟩

/-- C1 (counterexample): for a document containing a zero-priced product,
the first import leaves the catalog untouched, so the displayed run is also
the second import; its single `mergeProduct` call produces the guard no-op —
not the `skipped` outcome the claim requires of every second-pass call.  The
document is a real parser output, as the last conjunct shows. -/
theorem c1_counterexample :
    importDocument docZeroPrice empty0 =
      .ok (empty0, none, [ProdOutcome.noop]) ∧
    isSkippedP ProdOutcome.noop = false ∧
    parsePdfEstimate (.pages
        [⟨none, [[[some (lit "品名")],
                  [none, some (lit "部材Y"), some (lit "1"), none,
                   some (lit "0円")]]]⟩]) =
      some ⟨none, none, [⟨lit "部材Y", none, 0⟩]⟩ := by decide

/-! ## Claim C6: merging the same product twice -/

/-- C6: merging a product name absent from a well-formed catalog twice, with
positive prices `p1` then `p2`, leaves exactly one new row whose `base_price`
is `max p1 p2`; a strictly higher second price overwrites price and unit
together, while an equal or lower second price leaves the row exactly as the
first merge created it. -/
theorem c6_max_price (st : CatalogState) (n : Str) (u1 u2 : Option Str) (p1 p2 : Int)
    (hn : n ≠ []) (h1 : 0 < p1) (h2 : 0 < p2)
    (habs : firstProd st n = none) (hwf : wfProducts st) :
    ((importProduct n u2 p2 (importProduct n u1 p1 st).2).2).products =
      st.products ++ [⟨st.nextProductId, n, guessCategory n, max p1 p2,
                       if p1 < p2 then u2 else u1⟩] := by
  have hne : n.isEmpty = false := by
    cases n with
    | nil => exact absurd rfl hn
    | cons c cs => rfl
  unfold firstProd at habs
  have hg1 : ¬ ((n.isEmpty || decide (p1 ≤ 0)) = true) := by
    simp [hne]; omega
  have hg2 : ¬ ((n.isEmpty || decide (p2 ≤ 0)) = true) := by
    simp [hne]; omega
  have step1 : importProduct n u1 p1 st =
      (.created st.nextProductId,
       { st with
         products := st.products ++ [⟨st.nextProductId, n, guessCategory n, p1, u1⟩]
         nextProductId := st.nextProductId + 1 }) := by
    unfold importProduct
    rw [if_neg hg1, habs]
  rw [step1]
  have hfind : ((st.products ++
      [(⟨st.nextProductId, n, guessCategory n, p1, u1⟩ : Product)]).find?
        (fun p => p.product_name == n)) =
      some (⟨st.nextProductId, n, guessCategory n, p1, u1⟩ : Product) := by
    rw [List.find?_append, habs]
    simp [List.find?]
  by_cases hlt : p1 < p2
  · have hmap : st.products.map (updRow p2 u2 st.nextProductId) = st.products := by
      have hcg := List.map_congr_left (l := st.products)
        (f := updRow p2 u2 st.nextProductId) (g := id)
        (fun q hq => by
          have hqlt : q.product_id < st.nextProductId := hwf.1 q hq
          simp [updRow, Nat.ne_of_lt hqlt])
      simpa using hcg
    simp only [importProduct, hg2, if_false, hfind]
    simp only [hlt, if_true]
    rw [List.map_append, hmap]
    simp [updRow, max_eq_right (le_of_lt hlt), hlt]
  · simp only [importProduct, hg2, if_false, hfind]
    simp only [hlt, if_false]
    rw [max_eq_left (not_lt.mp hlt)]
    simp

/-- Witness for `c6_max_price`: merging `設備A` at 120 then 80 yen into the
empty catalog. -/
theorem c6_max_price_witness :
    ((importProduct (lit "設備A") (some (lit "台")) 80
        (importProduct (lit "設備A") (some (lit "個")) 120 empty0).2).2).products =
      empty0.products ++ [⟨empty0.nextProductId, lit "設備A",
        guessCategory (lit "設備A"), max 120 80,
        if (120 : Int) < 80 then some (lit "台") else some (lit "個")⟩] :=
  c6_max_price empty0 (lit "設備A") (some (lit "個")) (some (lit "台")) 120 80
    (by decide) (by decide) (by decide) (by decide) (by decide)

/-! ## Claim C7: the per-name uniqueness invariant -/

theorem importCustomer_uniqueNames (n : Str) (a : Option Str) (st : CatalogState)
    (h : uniqueNames st) : uniqueNames (importCustomer n a st).2 := by
  unfold importCustomer
  by_cases hne : n.isEmpty = true
  · rw [if_pos hne]; exact h
  · rw [if_neg hne]
    cases hf : st.customers.find? (fun c => c.company_name == n) with
    | some c => exact h
    | none =>
        cases a with
        | none => exact h
        | some addr =>
            refine ⟨?_, h.2⟩
            have hnotmem : n ∉ st.customers.map (fun c => c.company_name) := by
              intro hmem
              rcases List.mem_map.mp hmem with ⟨c, hc, hcn⟩
              have hnc := List.find?_eq_none.mp hf c hc
              simp [hcn] at hnc
            simpa [List.nodup_append, hnotmem] using h.1

theorem importProduct_uniqueNames (n : Str) (u : Option Str) (price : Int)
    (st : CatalogState) (h : uniqueNames st) :
    uniqueNames (importProduct n u price st).2 := by
  unfold importProduct
  by_cases hg : (n.isEmpty || decide (price ≤ 0)) = true
  · rw [if_pos hg]; exact h
  · rw [if_neg hg]
    cases hf : st.products.find? (fun p => p.product_name == n) with
    | some p =>
        dsimp only
        by_cases hlt : p.base_price < price
        · rw [if_pos hlt]
          refine ⟨h.1, ?_⟩
          have hnames : (st.products.map (updRow price u p.product_id)).map
                (fun q => q.product_name) =
              st.products.map (fun q => q.product_name) := by
            rw [List.map_map]
            exact List.map_congr_left (fun q hq => by
              by_cases hid : q.product_id = p.product_id <;> simp [updRow, hid])
          rw [hnames]
          exact h.2
        · rw [if_neg hlt]; exact h
    | none =>
        refine ⟨h.1, ?_⟩
        have hnotmem : n ∉ st.products.map (fun p => p.product_name) := by
          intro hmem
          rcases List.mem_map.mp hmem with ⟨q, hq, hqn⟩
          have hnq := List.find?_eq_none.mp hf q hq
          simp [hqn] at hnq
        simpa [List.nodup_append, hnotmem] using h.2

/-- C7: every sequence of merge calls preserves the invariant that the
catalog holds at most one customer row per distinct `company_name` and at
most one product row per distinct `product_name` (exact string match) — the
merge code enforces it by lookup-before-insert, with no schema-level
uniqueness constraint. -/
theorem c7_unique_names (cs : List MergeCall) (st : CatalogState)
    (h : uniqueNames st) : uniqueNames (applyCalls cs st) := by
  induction cs generalizing st with
  | nil => exact h
  | cons c rest ih =>
      cases c with
      | mCust n a => exact ih _ (importCustomer_uniqueNames n a st h)
      | mProd n u p => exact ih _ (importProduct_uniqueNames n u p st h)

/-- Witness for `c7_unique_names`: a sequence of four merge calls (with a
repeated customer and a repeated product) applied to the empty catalog. -/
theorem c7_unique_names_witness :
    uniqueNames empty0 ∧
    uniqueNames (applyCalls
      [.mCust (lit "株式会社アルファ") (some (lit "東京都")),
       .mProd (lit "製品X") (some (lit "台")) 100,
       .mCust (lit "株式会社アルファ") (some (lit "大阪")),
       .mProd (lit "製品X") none 150] empty0) :=
  ⟨by decide, c7_unique_names _ empty0 (by decide)⟩

/-! ## Claim C10: the price round trip -/

theorem digit_val_toDigitCh : ∀ d < 10, digitVal (toDigitCh d) = d := by decide

theorem isDigit_toDigitCh : ∀ d < 10, isDigitCh (toDigitCh d) = true := by decide

theorem digitsLE_all_digit :
    ∀ (fuel n : Nat), ∀ c ∈ digitsLE fuel n, isDigitCh c = true := by
  intro fuel
  induction fuel with
  | zero => intro n c hc; simp [digitsLE] at hc
  | succ fuel ih =>
      intro n c hc
      by_cases hn : n = 0
      · simp [digitsLE, hn] at hc
      · rw [digitsLE, if_neg hn] at hc
        rcases List.mem_cons.mp hc with h | h
        · rw [h]; exact isDigit_toDigitCh _ (Nat.mod_lt _ (by omega))
        · exact ih _ c h

theorem digitsOf_all_digit (n : Nat) : ∀ c ∈ digitsOf n, isDigitCh c = true := by
  intro c hc
  unfold digitsOf at hc
  by_cases hn : n = 0
  · rw [if_pos hn] at hc
    simp at hc
    rw [hc]; decide
  · rw [if_neg hn] at hc
    exact digitsLE_all_digit n n c (List.mem_reverse.mp hc)

theorem parseNat_digitsLE :
    ∀ (fuel n : Nat), n ≤ fuel → parseNatDigits ((digitsLE fuel n).reverse) = n := by
  intro fuel
  induction fuel with
  | zero =>
      intro n hn
      have : n = 0 := by omega
      subst this; rfl
  | succ fuel ih =>
      intro n hn
      by_cases h0 : n = 0
      · subst h0; rfl
      · rw [digitsLE, if_neg h0]
        rw [List.reverse_cons]
        unfold parseNatDigits
        rw [List.foldl_append]
        have hdiv : n / 10 ≤ fuel := by
          have := Nat.div_lt_self (Nat.pos_of_ne_zero h0) (by omega : 1 < 10)
          omega
        have hih := ih (n / 10) hdiv
        unfold parseNatDigits at hih
        rw [hih]
        simp only [List.foldl_cons, List.foldl_nil]
        rw [digit_val_toDigitCh _ (Nat.mod_lt _ (by omega))]
        omega

theorem parseNat_digitsOf (n : Nat) : parseNatDigits (digitsOf n) = n := by
  unfold digitsOf
  by_cases h0 : n = 0
  · rw [if_pos h0, h0]; rfl
  · rw [if_neg h0]
    exact parseNat_digitsLE n n le_rfl

/-- The character-keeping predicate of `cleanPrice`. -/
def keepPrice (c : Char) : Bool := !(c = '￥' || c = '¥' || c = ',' || c = '円')

theorem cleanPrice_eq_filter (s : Str) : cleanPrice s = s.filter keepPrice := rfl

theorem keep_digit (c : Char) (h : isDigitCh c = true) : keepPrice c = true := by
  unfold keepPrice
  by_cases h1 : c = '￥'
  · subst h1; exact absurd h (by decide)
  by_cases h2 : c = '¥'
  · subst h2; exact absurd h (by decide)
  by_cases h3 : c = ','
  · subst h3; exact absurd h (by decide)
  by_cases h4 : c = '円'
  · subst h4; exact absurd h (by decide)
  simp [h1, h2, h3, h4]

theorem commasRev_filter :
    ∀ (ds : List Char) (k : Nat), (commasRev ds k).filter keepPrice = ds.filter keepPrice := by
  intro ds
  induction ds with
  | nil => intro k; rfl
  | cons c rest ih =>
      intro k
      by_cases hk : k = 3
      · rw [commasRev, if_pos hk]
        show List.filter keepPrice (',' :: c :: commasRev rest 1) = _
        rw [List.filter_cons, List.filter_cons]
        have : keepPrice ',' = false := by decide
        rw [this]
        simp only [Bool.false_eq_true, if_false]
        rw [List.filter_cons]
        cases keepPrice c <;> simp [ih 1]
      · rw [commasRev, if_neg hk]
        rw [List.filter_cons, List.filter_cons]
        cases keepPrice c <;> simp [ih (k + 1)]

theorem cleanPrice_formatComma (n : Nat) : cleanPrice (formatComma n) = digitsOf n := by
  rw [cleanPrice_eq_filter]
  unfold formatComma
  rw [List.filter_reverse, commasRev_filter, List.filter_reverse, List.reverse_reverse,
      List.filter_eq_self.mpr (fun c hc => keep_digit c (digitsOf_all_digit n c hc))]

theorem dropWhile_of_all_false {p : Char → Bool} :
    ∀ l : List Char, (∀ c ∈ l, p c = false) → l.dropWhile p = l := by
  intro l h
  cases l with
  | nil => rfl
  | cons c rest => rw [List.dropWhile_cons, h c (by simp)]; simp

theorem takeWhile_of_all_true {p : Char → Bool} :
    ∀ l : List Char, (∀ c ∈ l, p c = true) → l.takeWhile p = l := by
  intro l
  induction l with
  | nil => intro _; rfl
  | cons c rest ih =>
      intro h
      rw [List.takeWhile_cons, h c (by simp)]
      simp only [if_true]
      rw [ih (fun x hx => h x (by simp [hx]))]

theorem digit_not_space (c : Char) (h : isDigitCh c = true) : isSpaceCh c = false := by
  simp only [isDigitCh, Bool.and_eq_true, decide_eq_true_eq] at h
  simp only [isSpaceCh]
  simp only [Bool.or_eq_false_iff, decide_eq_false_iff_not]
  omega

/-- `int(float(·))` on a pure (nonempty) digit string is `roundNE53` of its
decimal value. -/
theorem pyFloatInt_digits (ds : Str) (hne : ds ≠ [])
    (hdig : ∀ c ∈ ds, isDigitCh c = true) :
    pyFloatInt ds = some ((roundNE53 (parseNatDigits ds) : Nat) : Int) := by
  have hnospace : ∀ c ∈ ds, isSpaceCh c = false :=
    fun c hc => digit_not_space c (hdig c hc)
  have hdw1 : ds.dropWhile isSpaceCh = ds := dropWhile_of_all_false ds hnospace
  have hdw2 : ds.reverse.dropWhile isSpaceCh = ds.reverse :=
    dropWhile_of_all_false ds.reverse (fun c hc => hnospace c (List.mem_reverse.mp hc))
  unfold pyFloatInt
  rw [hdw1, hdw2, List.reverse_reverse]
  cases hds : ds with
  | nil => exact absurd hds hne
  | cons c rest =>
      have hcd : isDigitCh c = true := hdig c (by rw [hds]; simp)
      have hcm : decide (c = '-') = false := by
        by_cases h : c = '-'
        · subst h; exact absurd hcd (by decide)
        · simp [h]
      have hcp : decide (c = '+') = false := by
        by_cases h : c = '+'
        · subst h; exact absurd hcd (by decide)
        · simp [h]
      simp only [hcm, hcp, Bool.or_self, Bool.false_eq_true, if_false]
      have htk : (c :: rest).takeWhile isDigitCh = c :: rest :=
        takeWhile_of_all_true _ (fun x hx => hdig x (by rw [hds]; exact hx))
      rw [htk]
      rw [List.drop_length]
      have hnemp : (c :: rest).isEmpty = false := rfl
      rw [hnemp]
      rfl

theorem roundNE53_small {n : Nat} (h : n < 2 ^ 53) : roundNE53 n = n := by
  unfold roundNE53
  rw [if_pos h]

/-- C10 (amended): the round trip holds for every amount an IEEE-754 double
represents exactly, i.e. every `n < 2 ^ 53`: formatting `n` with thousand
separators and either currency glyph (optionally with the `円` unit
character) and then normalizing returns exactly `n`, without failing.  Above
`2 ^ 53` the `float` parse inside the normalizer rounds (see the
counterexample), which is the only amendment the claim needs. -/
theorem c10_amended (n : Nat) (g : Char) (b : Bool)
    (hn : n < 2 ^ 53) (hg : g = '￥' ∨ g = '¥') :
    normalizePrice (formatPrice g b n) = some (n : Int) := by
  unfold normalizePrice formatPrice
  have hclean : cleanPrice (g :: formatComma n ++ (if b then lit "円" else [])) =
      digitsOf n := by
    rw [cleanPrice_eq_filter]
    rw [List.filter_append, List.filter_cons]
    have hkg : keepPrice g = false := by
      rcases hg with h | h <;> (subst h; decide)
    rw [hkg]
    simp only [Bool.false_eq_true, if_false]
    have hku : (if b then lit "円" else []).filter keepPrice = [] := by
      cases b <;> decide
    rw [hku, List.append_nil, ← cleanPrice_eq_filter, cleanPrice_formatComma]
  rw [hclean]
  have hnonnil : digitsOf n ≠ [] := by
    unfold digitsOf
    by_cases h0 : n = 0
    · rw [if_pos h0]; simp
    · rw [if_neg h0]
      intro hcon
      have := parseNat_digitsLE n n le_rfl
      rw [show (digitsLE n n).reverse = ([] : Str) by
            simpa using congrArg List.reverse hcon] at this
      exact h0 (by simpa [parseNatDigits] using this.symm)
  rw [pyFloatInt_digits (digitsOf n) hnonnil (digitsOf_all_digit n),
      parseNat_digitsOf, roundNE53_small hn]

/-- Witness for `c10_amended`: the spec's own example `￥12,500円` round
trips to `12500`. -/
theorem c10_amended_witness :
    normalizePrice (formatPrice '￥' true 12500) = some (12500 : Int) :=
  c10_amended 12500 '￥' true (by norm_num) (Or.inl rfl)

/-- C10 (counterexample): the claim fails at `n = 2 ^ 53 + 1 =
9007199254740993`: its formatted token normalizes to `9007199254740992`,
because `float` parsing rounds the decimal value to the nearest binary64
value (ties to even) before `int` truncates. -/
theorem c10_counterexample :
    normalizePrice (formatPrice '￥' false 9007199254740993) =
      some (9007199254740992 : Int) ∧
    (9007199254740992 : Int) ≠ (9007199254740993 : Int) := by decide

/-! ## Lemmas for claim C1 (second-pass behaviour of the merger) -/

theorem importProduct_guard (n : Str) (u : Option Str) (p : Int) (st : CatalogState)
    (hg : (n.isEmpty || decide (p ≤ 0)) = true) :
    importProduct n u p st = (.noop, st) := by
  unfold importProduct
  rw [if_pos hg]

/-- One-step unfolding of the product loop. -/
theorem importProducts_cons (it : Item) (rest : List Item) (st : CatalogState) :
    importProducts (it :: rest) st =
      ((importProducts rest (importProduct it.name it.unit it.base_price st).2).1,
       (importProduct it.name it.unit it.base_price st).1 ::
         (importProducts rest (importProduct it.name it.unit it.base_price st).2).2) := by
  rcases hp : importProduct it.name it.unit it.base_price st with ⟨o, stA⟩
  rcases hr : importProducts rest stA with ⟨stB, os⟩
  simp only [importProducts, hp, hr]

theorem importProduct_customers (n : Str) (u : Option Str) (p : Int) (st : CatalogState) :
    ((importProduct n u p st).2).customers = st.customers ∧
    ((importProduct n u p st).2).nextCustomerId = st.nextCustomerId := by
  unfold importProduct
  by_cases hg : (n.isEmpty || decide (p ≤ 0)) = true
  · rw [if_pos hg]; exact ⟨rfl, rfl⟩
  · rw [if_neg hg]
    cases hf : st.products.find? (fun q => q.product_name == n) with
    | some q =>
        dsimp only
        by_cases hlt : q.base_price < p
        · rw [if_pos hlt]; exact ⟨rfl, rfl⟩
        · rw [if_neg hlt]; exact ⟨rfl, rfl⟩
    | none => exact ⟨rfl, rfl⟩

theorem importProducts_customers :
    ∀ (items : List Item) (st : CatalogState),
      ((importProducts items st).1).customers = st.customers ∧
      ((importProducts items st).1).nextCustomerId = st.nextCustomerId := by
  intro items
  induction items with
  | nil => intro st; exact ⟨rfl, rfl⟩
  | cons it rest ih =>
      intro st
      rw [importProducts_cons]
      refine ⟨?_, ?_⟩
      · rw [(ih _).1, (importProduct_customers it.name it.unit it.base_price st).1]
      · rw [(ih _).2, (importProduct_customers it.name it.unit it.base_price st).2]

theorem importProduct_skip (n : Str) (u : Option Str) (p : Int) (st : CatalogState)
    (hg : (n.isEmpty || decide (p ≤ 0)) = false)
    (q : Product) (hq : firstProd st n = some q) (hle : p ≤ q.base_price) :
    importProduct n u p st = (.skipped q.product_id, st) := by
  unfold firstProd at hq
  unfold importProduct
  rw [if_neg (by simp [hg]), hq]
  dsimp only
  rw [if_neg (by omega)]

theorem updRow_name (p : Int) (u : Option Str) (pid : Nat) (q : Product) :
    (updRow p u pid q).product_name = q.product_name := by
  unfold updRow
  by_cases hid : q.product_id = pid <;> simp [hid]

theorem updRow_id (p : Int) (u : Option Str) (pid : Nat) (q : Product) :
    (updRow p u pid q).product_id = q.product_id := by
  unfold updRow
  by_cases hid : q.product_id = pid <;> simp [hid]

theorem find?_map_updRow (l : List Product) (p : Int) (u : Option Str)
    (pid : Nat) (m : Str) :
    ((l.map (updRow p u pid)).find? (fun x => x.product_name == m)) =
      (l.find? (fun x => x.product_name == m)).map (updRow p u pid) := by
  rw [List.find?_map]
  have hcomp : ((fun x : Product => x.product_name == m) ∘ updRow p u pid) =
      (fun x : Product => x.product_name == m) := by
    funext x
    simp only [Function.comp_apply]
    rw [updRow_name]
  rw [hcomp]

/-- One-step characterization of `importProduct` over a well-formed catalog:
well-formedness is preserved; the first row found for every name keeps its
identity and its price never decreases; and after an effective call (guard
passed) the called name's row exists with at least the called price, the
call's outcome naming that row. -/
theorem importProduct_step (n : Str) (u : Option Str) (p : Int) (st : CatalogState)
    (hwf : wfProducts st) :
    wfProducts (importProduct n u p st).2 ∧
    (∀ m q, firstProd st m = some q →
      ∃ q', firstProd (importProduct n u p st).2 m = some q' ∧
            q'.product_id = q.product_id ∧ q.base_price ≤ q'.base_price) ∧
    ((n.isEmpty || decide (p ≤ 0)) = false →
      ∃ q', firstProd (importProduct n u p st).2 n = some q' ∧
            p ≤ q'.base_price ∧
            prodSecondPass (importProduct n u p st).1 = .skipped q'.product_id) := by
  by_cases hg : (n.isEmpty || decide (p ≤ 0)) = true
  · rw [importProduct_guard n u p st hg]
    refine ⟨hwf, ?_, ?_⟩
    · intro m q hq; exact ⟨q, hq, rfl, le_rfl⟩
    · intro hcon; rw [hg] at hcon; exact absurd hcon (by simp)
  · unfold importProduct
    rw [if_neg hg]
    cases hf : st.products.find? (fun q => q.product_name == n) with
    | some q0 =>
        dsimp only
        by_cases hlt : q0.base_price < p
        · rw [if_pos hlt]
          refine ⟨⟨?_, ?_⟩, ?_, ?_⟩
          · intro q hq
            rcases List.mem_map.mp hq with ⟨x, hx, rfl⟩
            rw [updRow_id]
            exact hwf.1 x hx
          · show ((st.products.map (updRow p u q0.product_id)).map
                (fun q => q.product_id)).Nodup
            rw [List.map_map]
            have hcomp : ((fun (q : Product) => q.product_id) ∘ updRow p u q0.product_id) =
                (fun (q : Product) => q.product_id) := by
              funext x
              simp only [Function.comp_apply]
              rw [updRow_id]
            rw [hcomp]
            exact hwf.2
          · intro m q hq
            unfold firstProd at hq ⊢
            dsimp only
            rw [find?_map_updRow, hq, Option.map_some']
            refine ⟨updRow p u q0.product_id q, rfl, updRow_id p u q0.product_id q, ?_⟩
            unfold updRow
            by_cases hid : q.product_id = q0.product_id
            · have hqq0 : q = q0 := by
                have hmemq := List.mem_of_find?_eq_some hq
                have hmemq0 := List.mem_of_find?_eq_some hf
                exact List.inj_on_of_nodup_map hwf.2 hmemq hmemq0 hid
              rw [if_pos hid]
              dsimp only
              rw [hqq0]
              exact le_of_lt hlt
            · rw [if_neg hid]
          · intro _
            unfold firstProd
            dsimp only
            rw [find?_map_updRow, hf, Option.map_some']
            refine ⟨updRow p u q0.product_id q0, rfl, ?_, ?_⟩
            · unfold updRow
              rw [if_pos rfl]
            · rw [updRow_id]
              rfl
        · rw [if_neg hlt]
          refine ⟨hwf, ?_, ?_⟩
          · intro m q hq; exact ⟨q, hq, rfl, le_rfl⟩
          · intro _
            exact ⟨q0, hf, by omega, rfl⟩
    | none =>
        dsimp only
        have hnew : ∀ m : Str,
            ((st.products ++ [(⟨st.nextProductId, n, guessCategory n, p, u⟩ : Product)]).find?
              (fun x => x.product_name == m)) =
            ((st.products.find? (fun x => x.product_name == m)).or
              (if (n == m) = true then
                some (⟨st.nextProductId, n, guessCategory n, p, u⟩ : Product) else none)) := by
          intro m
          rw [List.find?_append]
          congr 1
          simp only [List.find?]
          cases hnm : n == m with
          | true => rfl
          | false => rfl
        refine ⟨⟨?_, ?_⟩, ?_, ?_⟩
        · intro q hq
          rcases List.mem_append.mp hq with h | h
          · exact Nat.lt_succ_of_lt (hwf.1 q h)
          · simp at h
            rw [h]
            exact Nat.lt_succ_self _
        · show ((st.products ++
              [(⟨st.nextProductId, n, guessCategory n, p, u⟩ : Product)]).map
                (fun q => q.product_id)).Nodup
          rw [List.map_append]
          have hnm : st.nextProductId ∉ st.products.map (fun q => q.product_id) := by
            intro hmem
            rcases List.mem_map.mp hmem with ⟨x, hx, hxid⟩
            have := hwf.1 x hx
            omega
          simpa [List.nodup_append, hnm] using hwf.2
        · intro m q hq
          unfold firstProd at hq ⊢
          dsimp only
          rw [hnew m, hq]
          exact ⟨q, rfl, rfl, le_rfl⟩
        · intro _
          unfold firstProd
          dsimp only
          rw [hnew n, hf]
          have hbeq : (n == n) = true := by simp
          rw [if_pos hbeq]
          exact ⟨_, rfl, le_rfl, rfl⟩

theorem importProducts_stable :
    ∀ (items : List Item) (st : CatalogState), wfProducts st →
      wfProducts (importProducts items st).1 ∧
      (∀ m q, firstProd st m = some q →
        ∃ q', firstProd (importProducts items st).1 m = some q' ∧
              q'.product_id = q.product_id ∧ q.base_price ≤ q'.base_price) := by
  intro items
  induction items with
  | nil => intro st hwf; exact ⟨hwf, fun m q hq => ⟨q, hq, rfl, le_rfl⟩⟩
  | cons it rest ih =>
      intro st hwf
      rw [importProducts_cons]
      have hstep := importProduct_step it.name it.unit it.base_price st hwf
      have hih := ih (importProduct it.name it.unit it.base_price st).2 hstep.1
      refine ⟨hih.1, ?_⟩
      intro m q hq
      rcases hstep.2.1 m q hq with ⟨q1, hq1, hid1, hle1⟩
      rcases hih.2 m q1 hq1 with ⟨q2, hq2, hid2, hle2⟩
      exact ⟨q2, hq2, by rw [hid2, hid1], le_trans hle1 hle2⟩

/-- The heart of the idempotence argument: re-running the product loop from
the state it produced changes nothing and turns every first-pass outcome
into its second-pass form (skips, except guard no-ops). -/
theorem importProducts_second_pass :
    ∀ (items : List Item) (st : CatalogState), wfProducts st →
      ∀ st1 os, importProducts items st = (st1, os) →
        importProducts items st1 = (st1, os.map prodSecondPass) := by
  intro items
  induction items with
  | nil =>
      intro st hwf st1 os h
      unfold importProducts at h
      injection h with hst hos
      subst hst
      subst hos
      rfl
  | cons it rest ih =>
      intro st hwf st1 os h
      rcases hp : importProduct it.name it.unit it.base_price st with ⟨o, stA⟩
      rcases hr : importProducts rest stA with ⟨stB, osR⟩
      have hcons : importProducts (it :: rest) st = (stB, o :: osR) := by
        rw [importProducts_cons, hp]
        dsimp only
        rw [hr]
      rw [hcons] at h
      injection h with hst hos
      subst hst
      subst hos
      have hwfA : wfProducts stA := by
        have hw := (importProduct_step it.name it.unit it.base_price st hwf).1
        rw [hp] at hw
        exact hw
      have hih := ih stA hwfA stB osR hr
      by_cases hg : (it.name.isEmpty || decide (it.base_price ≤ 0)) = true
      · have hnoop := importProduct_guard it.name it.unit it.base_price st hg
        rw [hp] at hnoop
        injection hnoop with ho hstA
        subst ho
        subst hstA
        have hnoop2 := importProduct_guard it.name it.unit it.base_price stB hg
        rw [importProducts_cons, hnoop2]
        dsimp only
        rw [hih]
        rfl
      · have hg' : (it.name.isEmpty || decide (it.base_price ≤ 0)) = false := by
          cases hb : (it.name.isEmpty || decide (it.base_price ≤ 0)) with
          | true => exact absurd hb hg
          | false => rfl
        have hstep := importProduct_step it.name it.unit it.base_price st hwf
        rcases hstep.2.2 hg' with ⟨qA, hqA, hleA, hoA⟩
        rw [hp] at hqA hoA
        dsimp only at hqA hoA
        rcases (importProducts_stable rest stA hwfA).2 it.name qA hqA with
          ⟨qB, hqB, hidB, hleB⟩
        rw [hr] at hqB
        dsimp only at hqB
        have hskip := importProduct_skip it.name it.unit it.base_price stB hg' qB hqB
          (le_trans hleA hleB)
        rw [importProducts_cons, hskip]
        dsimp only
        rw [hih]
        rw [List.map_cons, hoA, hidB]

/-! Customer-side lemmas. -/

theorem importCustomer_not_noop (n : Str) (a : Option Str) (st : CatalogState)
    (hne : n.isEmpty = false) : (importCustomer n a st).1 ≠ .noop := by
  unfold importCustomer
  rw [hne]
  simp only [Bool.false_eq_true, if_false]
  cases hf : st.customers.find? (fun c => c.company_name == n) with
  | some c => simp
  | none => cases a <;> simp

/-- Exhaustive behaviour of `import_customer` for a nonempty name. -/
theorem importCustomer_sound (n : Str) (a : Option Str) (st : CatalogState)
    (hne : n.isEmpty = false) :
    (∃ c, firstCust st n = some c ∧
       importCustomer n a st = (.skipped c.customer_id, st)) ∨
    (firstCust st n = none ∧ a = none ∧ importCustomer n a st = (.dbError, st)) ∨
    (∃ addr, a = some addr ∧ firstCust st n = none ∧
       importCustomer n a st = (.created st.nextCustomerId,
         { st with
           customers := st.customers ++ [⟨st.nextCustomerId, n, some addr, [], []⟩]
           nextCustomerId := st.nextCustomerId + 1 })) := by
  unfold importCustomer firstCust
  rw [hne]
  simp only [Bool.false_eq_true, if_false]
  cases hf : st.customers.find? (fun c => c.company_name == n) with
  | some c => exact Or.inl ⟨c, rfl, rfl⟩
  | none =>
      cases a with
      | none => exact Or.inr (Or.inl ⟨rfl, rfl, rfl⟩)
      | some addr => exact Or.inr (Or.inr ⟨addr, rfl, rfl, rfl⟩)

theorem importCustomer_skip2 (n : Str) (a : Option Str) (st : CatalogState)
    (hne : n.isEmpty = false) (c : Customer) (hc : firstCust st n = some c) :
    importCustomer n a st = (.skipped c.customer_id, st) := by
  unfold firstCust at hc
  unfold importCustomer
  rw [hne]
  simp only [Bool.false_eq_true, if_false]
  rw [hc]

theorem truthy_getD_ne (x : Option Str) (ht : truthy x = true) :
    ((x.getD []).isEmpty) = false := by
  cases x with
  | none => exact absurd ht (by simp [truthy])
  | some s =>
      simp only [Option.getD_some]
      simp only [truthy, Bool.not_eq_true'] at ht
      exact ht

/-- C1 (amended): when importing a parsed document into a well-formed
catalog succeeds, importing it a second time changes nothing: the catalog
state is identical, the customer-merge call (when one is made) produces
`skipped` for the same row the first pass created or found, and every
product-merge call produces `skipped` for the same row — except the calls
rejected by the empty-name/non-positive-price guard, which produce a no-op
in both passes (`prodSecondPass`/`custSecondPass` describe exactly this
outcome mapping). -/
theorem c1_amended (d : ParsedEstimate) (st : CatalogState) (hwf : wfProducts st)
    (st1 : CatalogState) (oc : Option CustOutcome) (os : List ProdOutcome)
    (h : importDocument d st = .ok (st1, oc, os)) :
    importDocument d st1 = .ok (st1, oc.map custSecondPass, os.map prodSecondPass) := by
  unfold importDocument at h ⊢
  by_cases ht : truthy d.customer_name = true
  · rw [if_pos ht] at h ⊢
    have hne := truthy_getD_ne d.customer_name ht
    rcases hc : importCustomer (d.customer_name.getD []) d.address st with ⟨co, stC⟩
    rw [hc] at h
    cases co with
    | dbError => exact absurd h (by simp)
    | noop =>
        have hnn := importCustomer_not_noop (d.customer_name.getD []) d.address st hne
        rw [hc] at hnn
        exact absurd rfl hnn
    | skipped i =>
        dsimp only at h
        rcases hps : importProducts d.products stC with ⟨st2, os2⟩
        rw [hps] at h
        dsimp only at h
        injection h with h'
        injection h' with h1 h2
        injection h2 with h2a h2b
        subst h1
        subst h2a
        subst h2b
        rcases importCustomer_sound (d.customer_name.getD []) d.address st hne with
          ⟨c, hfc, heq⟩ | ⟨_, _, heq⟩ | ⟨addr, ha, hfc, heq⟩
        · rw [hc] at heq
          injection heq with ho hstC
          injection ho with hi
          subst hstC
          subst hi
          have hcust1 : st2.customers = stC.customers := by
            have hpc := (importProducts_customers d.products stC).1
            rw [hps] at hpc
            exact hpc
          have hfc2 : firstCust st2 (d.customer_name.getD []) = some c := by
            unfold firstCust at hfc ⊢
            rw [hcust1]
            exact hfc
          rw [importCustomer_skip2 (d.customer_name.getD []) d.address st2 hne c hfc2]
          dsimp only
          rw [importProducts_second_pass d.products stC hwf st2 os2 hps]
          rfl
        · rw [hc] at heq
          injection heq with ho _
          exact absurd ho (by simp)
        · rw [hc] at heq
          injection heq with ho _
          exact absurd ho (by simp)
    | created i =>
        dsimp only at h
        rcases hps : importProducts d.products stC with ⟨st2, os2⟩
        rw [hps] at h
        dsimp only at h
        injection h with h'
        injection h' with h1 h2
        injection h2 with h2a h2b
        subst h1
        subst h2a
        subst h2b
        rcases importCustomer_sound (d.customer_name.getD []) d.address st hne with
          ⟨c, hfc, heq⟩ | ⟨_, _, heq⟩ | ⟨addr, ha, hfc, heq⟩
        · rw [hc] at heq
          injection heq with ho _
          exact absurd ho (by simp)
        · rw [hc] at heq
          injection heq with ho _
          exact absurd ho (by simp)
        · rw [hc] at heq
          injection heq with ho hstC
          injection ho with hi
          subst hstC
          subst hi
          have hcust1 : st2.customers = st.customers ++
              [⟨st.nextCustomerId, d.customer_name.getD [], some addr, [], []⟩] := by
            have hpc := (importProducts_customers d.products ({ st with
                customers := st.customers ++
                  [⟨st.nextCustomerId, d.customer_name.getD [], some addr, [], []⟩]
                nextCustomerId := st.nextCustomerId + 1 })).1
            rw [hps] at hpc
            exact hpc
          have hfc2 : firstCust st2 (d.customer_name.getD []) =
              some ⟨st.nextCustomerId, d.customer_name.getD [], some addr, [], []⟩ := by
            unfold firstCust
            rw [hcust1, List.find?_append]
            unfold firstCust at hfc
            rw [hfc]
            simp [List.find?]
          rw [importCustomer_skip2 (d.customer_name.getD []) d.address st2 hne _ hfc2]
          dsimp only
          have hwfC : wfProducts ({ st with
              customers := st.customers ++
                [⟨st.nextCustomerId, d.customer_name.getD [], some addr, [], []⟩]
              nextCustomerId := st.nextCustomerId + 1 }) := hwf
          rw [importProducts_second_pass d.products _ hwfC st2 os2 hps]
          rfl
  · rw [if_neg ht] at h ⊢
    rcases hps : importProducts d.products st with ⟨st2, os2⟩
    rw [hps] at h
    dsimp only at h
    injection h with h'
    injection h' with h1 h2
    injection h2 with h2a h2b
    subst h1
    subst h2a
    subst h2b
    rw [importProducts_second_pass d.products st hwf st2 os2 hps]
    rfl

/-- The parsed document used by the idempotence witness: a customer with an
address, the same product twice (second occurrence cheaper), and a
zero-priced item. -/
def docTwiceW : ParsedEstimate :=
  ⟨some (lit "株式会社アルファ"), some (lit "東京都"),
   [⟨lit "製品X", some (lit "台"), 100⟩,
    ⟨lit "製品X", some (lit "個"), 80⟩,
    ⟨lit "部材Y", none, 0⟩]⟩

/-- The catalog `docTwiceW` produces from the empty catalog. -/
def stTwiceW : CatalogState :=
  ⟨[⟨1, lit "株式会社アルファ", some (lit "東京都"), [], []⟩],
   [⟨1, lit "製品X", lit "その他", 100, some (lit "台")⟩], 2, 2⟩

/-- Witness for `c1_amended`: re-importing `docTwiceW` into the catalog it
produced skips the customer and the two effective product calls and
re-no-ops the zero-priced call, changing nothing. -/
theorem c1_amended_witness :
    importDocument docTwiceW stTwiceW =
      .ok (stTwiceW, (some (CustOutcome.created 1)).map custSecondPass,
           ([ProdOutcome.created 1, ProdOutcome.skipped 1,
             ProdOutcome.noop]).map prodSecondPass) :=
  c1_amended docTwiceW empty0 (by decide) stTwiceW
    (some (CustOutcome.created 1))
    [ProdOutcome.created 1, ProdOutcome.skipped 1, ProdOutcome.noop]
    (by decide)

/-- Witness for `c8_amended` at a concrete accepted row. -/
theorem c8_amended_witness :
    ∃ ps : Str,
      ([some (lit "1"), some (lit "商品B"), some (lit "1"), some (lit "式"),
        some (lit "-100")] : List (Option Str)).getD 4 none = some ps ∧
      normalizePrice ps =
        some ((⟨lit "商品B", some (lit "式"), -100⟩ : Item).base_price) :=
  c8_amended _ _ (by decide)

end EstImport
